import Mathlib

/-!
# Verification of the vml image-catalog engine

Shallow embedding of `src/images.rs`: the deserialized catalog entry type,
the two-pointer catalog merge `update_images`, the freshness test
`Image::outdate`, the atomic download `Image::pull`, and the directory
listing `list`, together with proofs of the specified properties.
-/

/-- Embeds `DeserializeImage` (src/images.rs, lines 199-210): one catalog
entry.  `PathBuf` is modelled as `String`, the `BTreeMap<String,String>`
arch mapping as an association list (only equality of whole values matters
to the merge). -/
structure DeserializeImage where
  description : Option String
  url : String
  get_url_prog : Option String
  change : List String
  update_after_days : Option Nat
  arch_mapping : Option (List (String × String))
deriving Repr, DecidableEq

/-- A catalog as iterated by `btree_map::IntoIter`: an association list of
entries; a `BTreeMap` iterates its entries in strictly increasing key
order, so catalogs coming from a map are `CatalogSorted`. -/
abbrev Catalog := List (String × DeserializeImage)

/-- Strict name-sortedness: the iteration order of a `BTreeMap`. -/
def CatalogSorted (c : Catalog) : Prop :=
  c.Pairwise (fun p q => p.1 < q.1)

/-- Embeds `BTreeMap::insert` on the association-list model: insert keeps
keys strictly sorted and overwrites an existing binding of the same key. -/
def btInsert (k : String) (v : DeserializeImage) : Catalog → Catalog
  | [] => [(k, v)]
  | (k', v') :: t =>
    if k < k' then (k, v) :: (k', v') :: t
    else if k = k' then (k, v) :: t
    else (k', v') :: btInsert k v t

/-- Embeds `BTreeMap::get` on the association-list model. -/
def getEntry (n : String) : Catalog → Option DeserializeImage
  | [] => none
  | (k, v) :: t => if n = k then some v else getEntry n t

/-- Embeds the `Ordering::Equal` branch of `update_images`
(src/images.rs, lines 242-292): field-by-field merge of an old (local)
entry with the new (embedded) entry of the same name, driven by the old
entry's change-directive list. -/
def mergeEntry (old new : DeserializeImage) : DeserializeImage :=
  let change_set := old.change
  let update_all := change_set.contains "update-all"
  let url :=
    if change_set.contains "keep-url"
        || (!update_all && !change_set.contains "update-url") then
      old.url
    else new.url
  let get_url_prog :=
    if change_set.contains "keep-get-url-prog"
        || (!update_all && !change_set.contains "update-get-url-prog") then
      old.get_url_prog
    else new.get_url_prog
  let description :=
    if change_set.contains "keep-description"
        || (!update_all && !change_set.contains "update-description") then
      old.description
    else new.description
  let change :=
    if change_set.contains "keep-change"
        || (!update_all && !change_set.contains "update-change") then
      old.change
    else new.change
  let update_after_days :=
    if change_set.contains "keep-update-after-days"
        || (!update_all && !change_set.contains "update-update-after-days") then
      old.update_after_days
    else new.update_after_days
  let arch_mapping :=
    if change_set.contains "keep-arch-mapping"
        || (!update_all && !change_set.contains "update-arch-mapping") then
      old.arch_mapping
    else new.arch_mapping
  { url, get_url_prog, description, change, update_after_days, arch_mapping }

/-- Embeds the `while let (Some(ei), Some(ci))` loop of `update_images`
(src/images.rs, lines 225-294) with `acc` playing the `images` map: the
loop body advances one or both iterators and inserts into `images`; the
loop exits as soon as EITHER iterator is exhausted, leaving the pending
entries of the other iterator unprocessed, exactly as the Rust code does. -/
def updateImagesGo : Catalog → Catalog → Catalog → Catalog
  | [], _, acc => acc
  | _ :: _, [], acc => acc
  | (nn, nv) :: ns, (cn, cv) :: cs, acc =>
    if nn < cn then
      updateImagesGo ns ((cn, cv) :: cs) (btInsert nn nv acc)
    else if cn < nn then
      updateImagesGo ((nn, nv) :: ns) cs
        (if cv.change.contains "delete" then acc else btInsert cn cv acc)
    else
      updateImagesGo ns cs (btInsert cn (mergeEntry cv nv) acc)
termination_by a b _ => a.length + b.length

/-- Embeds `update_images` (src/images.rs, lines 217-297): merge the
embedded (new) catalog iterator with the local config (old) catalog
iterator into a fresh map. -/
def update_images (embedded_images config_images : Catalog) : Catalog :=
  updateImagesGo embedded_images config_images []

/-- The directive vocabulary the merge inspects (spec section 6): `delete`,
`update-all`, and `keep-`/`update-` for each of the six mergeable fields,
under the field names the code uses. -/
def knownDirectives : List String :=
  ["delete", "update-all",
   "keep-url", "update-url",
   "keep-get-url-prog", "update-get-url-prog",
   "keep-description", "update-description",
   "keep-change", "update-change",
   "keep-update-after-days", "update-update-after-days",
   "keep-arch-mapping", "update-arch-mapping"]

/-! ## Freshness test (`Image::outdate`, src/images.rs lines 65-79) -/

def nanosPerSec : Nat := 1000000000

/-- Embeds `Image::outdate_option` (src/images.rs, lines 65-75).  Time is
modelled in nanoseconds since the epoch: `modified_time` is the image
file's mtime when `fs::metadata(..).and_then(|m| m.modified())` succeeds
(`none` models the failing call, in particular a missing file) and `now`
is `SystemTime::now()`.  `duration_since` fails when the mtime lies in the
future; `Duration::from_secs` makes the threshold
`update_after_days * 60 * 60 * 24` seconds; the image-specific
`update_after_days` falls back to the catalog-wide default via `.or`, and
a missing threshold aborts with `None` via the `?` operator. -/
def outdate_option (config_update_after_days update_after_days : Option Nat)
    (modified_time : Option Nat) (now : Nat) : Option Bool := do
  let default_update_after_days := config_update_after_days
  let modified ← modified_time
  let duration ← if modified ≤ now then some (now - modified) else none
  let days ← update_after_days.or default_update_after_days
  some (decide (days * 60 * 60 * 24 * nanosPerSec < duration))

/-- Embeds `Image::outdate` (src/images.rs, lines 77-79):
`outdate_option().unwrap_or(false)`. -/
def outdate (config_update_after_days update_after_days : Option Nat)
    (modified_time : Option Nat) (now : Nat) : Bool :=
  (outdate_option config_update_after_days update_after_days modified_time
    now).getD false

/-! ## Atomic download (`Image::pull`, src/images.rs lines 106-120) -/

/-- Outcome of `Image::pull` on the abstract filesystem: the bytes at the
image path afterwards, whether a temporary file of this call is left in
the images directory, and whether the call returned `Ok`. -/
structure PullResult where
  image : Option (List Nat)
  temp_left : Bool
  ok : Bool
deriving Repr, DecidableEq

/-- Embeds `Image::pull` (src/images.rs, lines 106-120) over an abstract
filesystem.  `image0` is the pre-existing content at the image path;
`download` is `none` when `reqwest::blocking::get` fails, otherwise the
body bytes; `tmpfile_ok` and `copy_ok` tell whether creating the temporary
file and `copy_to` succeed.  The failure points follow the source order: a
download error returns before anything touches the filesystem; the
temporary file is created in the images directory and — per the documented
drop semantics of `tempfile::NamedTempFile`, which the code relies on — is
removed again when `pull` returns early through `?`; only the final
`fs::rename` replaces the image path, atomically, with the downloaded
bytes. -/
def pull (image0 : Option (List Nat)) (download : Option (List Nat))
    (tmpfile_ok copy_ok : Bool) : PullResult :=
  match download with
  | none => ⟨image0, false, false⟩
  | some body =>
    if tmpfile_ok = false then ⟨image0, false, false⟩
    else if copy_ok = false then ⟨image0, false, false⟩
    else ⟨some body, false, true⟩

/-! ## Directory listing (`list`, src/images.rs lines 358-369) -/

/-- Embeds `BTreeSet::insert` on the sorted-list model of
`BTreeSet<String>`. -/
def setInsert (n : String) : List String → List String
  | [] => [n]
  | x :: t =>
    if n < x then n :: x :: t
    else if n = x then x :: t
    else x :: setInsert n t

/-- Embeds `list` (src/images.rs, lines 358-369): every entry name of
every search directory is inserted into a `BTreeSet`, which is then
collected in ascending order.  A directory is modelled as the list of its
entry names in reading order. -/
def list (images_dirs : List (List String)) : List String :=
  images_dirs.foldl
    (fun images dir => dir.foldl (fun s n => setInsert n s) images) []

/-! ## Basic lemmas about the association-list model -/

lemma contains_eq_true_of_mem {l : List String} {s : String} (h : s ∈ l) :
    l.contains s = true :=
  List.elem_eq_true_of_mem h

lemma contains_eq_false_of_not_mem {l : List String} {s : String} (h : s ∉ l) :
    l.contains s = false := by
  cases hc : l.contains s with
  | false => rfl
  | true => exact absurd (List.mem_of_elem_eq_true hc) h

lemma catalogSorted_cons {p : String × DeserializeImage} {l : Catalog} :
    CatalogSorted (p :: l) ↔ (∀ q ∈ l, p.1 < q.1) ∧ CatalogSorted l :=
  List.pairwise_cons

lemma catalogSorted_nil : CatalogSorted [] := List.Pairwise.nil

lemma getEntry_cons {n k : String} {v : DeserializeImage} {t : Catalog} :
    getEntry n ((k, v) :: t) = if n = k then some v else getEntry n t := rfl

lemma getEntry_none_of_forall_lt {n : String} :
    ∀ {l : Catalog}, (∀ p ∈ l, n < p.1) → getEntry n l = none := by
  intro l
  induction l with
  | nil => intro _; rfl
  | cons p t ih =>
    intro h
    obtain ⟨k, v⟩ := p
    have hk : n < k := h (k, v) (List.mem_cons_self _ _)
    rw [getEntry_cons, if_neg (ne_of_lt hk)]
    exact ih fun q hq => h q (List.mem_cons_of_mem _ hq)

lemma btInsert_append {k : String} {v : DeserializeImage} :
    ∀ {acc : Catalog}, (∀ p ∈ acc, p.1 < k) → btInsert k v acc = acc ++ [(k, v)] := by
  intro acc
  induction acc with
  | nil => intro _; rfl
  | cons p t ih =>
    intro h
    obtain ⟨k', v'⟩ := p
    have hk : k' < k := h (k', v') (List.mem_cons_self _ _)
    rw [btInsert, if_neg (asymm hk), if_neg (ne_of_gt hk)]
    rw [ih fun q hq => h q (List.mem_cons_of_mem _ hq)]
    rfl

/-- While the merge loop runs over name-sorted inputs, every key it inserts
into `images` is strictly greater than every key already there, so the
accumulating loop equals the loop started on an empty map prefixed by the
accumulator. -/
lemma updateImagesGo_append :
    ∀ (N : Nat) (newL oldL acc : Catalog),
      newL.length + oldL.length ≤ N →
      CatalogSorted newL → CatalogSorted oldL →
      (∀ p ∈ acc, ∀ q ∈ newL, p.1 < q.1) →
      (∀ p ∈ acc, ∀ q ∈ oldL, p.1 < q.1) →
      updateImagesGo newL oldL acc = acc ++ updateImagesGo newL oldL [] := by
  intro N
  induction N with
  | zero =>
    intro newL oldL acc hlen _ _ _ _
    cases newL with
    | nil => simp [updateImagesGo]
    | cons p ns => simp at hlen
  | succ N ih =>
    intro newL oldL acc hlen hsn hso han hao
    cases newL with
    | nil => simp [updateImagesGo]
    | cons np ns =>
      obtain ⟨nn, nv⟩ := np
      cases oldL with
      | nil => simp [updateImagesGo]
      | cons cp cs =>
        obtain ⟨cn, cv⟩ := cp
        simp only [List.length_cons] at hlen
        have hns : ∀ q ∈ ns, nn < q.1 := (catalogSorted_cons.mp hsn).1
        have hsn' : CatalogSorted ns := (catalogSorted_cons.mp hsn).2
        have hcs : ∀ q ∈ cs, cn < q.1 := (catalogSorted_cons.mp hso).1
        have hso' : CatalogSorted cs := (catalogSorted_cons.mp hso).2
        by_cases h1 : nn < cn
        · -- Less: the new entry is inserted and the new iterator advances
          have hacc : ∀ p ∈ acc, p.1 < nn :=
            fun p hp => han p hp (nn, nv) (List.mem_cons_self _ _)
          have hb1 : ∀ q ∈ ns, nn < q.1 := hns
          have hb2 : ∀ q ∈ (cn, cv) :: cs, nn < q.1 := by
            intro q hq
            rcases List.mem_cons.mp hq with rfl | hq
            · exact h1
            · exact lt_trans h1 (hcs q hq)
          simp only [updateImagesGo, if_pos h1]
          rw [btInsert_append hacc,
            show btInsert nn nv ([] : Catalog) = [(nn, nv)] from rfl]
          rw [ih ns ((cn, cv) :: cs) (acc ++ [(nn, nv)])
              (by simp only [List.length_cons]; omega) hsn' hso
              (by
                intro p hp q hq
                rcases List.mem_append.mp hp with hp | hp
                · exact han p hp q (List.mem_cons_of_mem _ hq)
                · simp only [List.mem_singleton] at hp
                  subst hp
                  exact hb1 q hq)
              (by
                intro p hp q hq
                rcases List.mem_append.mp hp with hp | hp
                · exact hao p hp q hq
                · simp only [List.mem_singleton] at hp
                  subst hp
                  exact hb2 q hq)]
          rw [ih ns ((cn, cv) :: cs) [(nn, nv)]
              (by simp only [List.length_cons]; omega) hsn' hso
              (by
                intro p hp q hq
                simp only [List.mem_singleton] at hp
                subst hp
                exact hb1 q hq)
              (by
                intro p hp q hq
                simp only [List.mem_singleton] at hp
                subst hp
                exact hb2 q hq)]
          simp [List.append_assoc]
        · by_cases h2 : cn < nn
          · -- Greater: the old entry is handled and the old iterator advances
            simp only [updateImagesGo, if_neg h1, if_pos h2]
            have hb1 : ∀ q ∈ (nn, nv) :: ns, cn < q.1 := by
              intro q hq
              rcases List.mem_cons.mp hq with rfl | hq
              · exact h2
              · exact lt_trans h2 (hns q hq)
            by_cases hd : cv.change.contains "delete" = true
            · rw [if_pos hd, if_pos hd]
              exact ih ((nn, nv) :: ns) cs acc
                (by simp only [List.length_cons]; omega) hsn hso' han
                (fun p hp q hq => hao p hp q (List.mem_cons_of_mem _ hq))
            · rw [if_neg hd, if_neg hd]
              have hacc : ∀ p ∈ acc, p.1 < cn :=
                fun p hp => hao p hp (cn, cv) (List.mem_cons_self _ _)
              rw [btInsert_append hacc,
                show btInsert cn cv ([] : Catalog) = [(cn, cv)] from rfl]
              rw [ih ((nn, nv) :: ns) cs (acc ++ [(cn, cv)])
                  (by simp only [List.length_cons]; omega) hsn hso'
                  (by
                    intro p hp q hq
                    rcases List.mem_append.mp hp with hp | hp
                    · exact han p hp q hq
                    · simp only [List.mem_singleton] at hp
                      subst hp
                      exact hb1 q hq)
                  (by
                    intro p hp q hq
                    rcases List.mem_append.mp hp with hp | hp
                    · exact hao p hp q (List.mem_cons_of_mem _ hq)
                    · simp only [List.mem_singleton] at hp
                      subst hp
                      exact hcs q hq)]
              rw [ih ((nn, nv) :: ns) cs [(cn, cv)]
                  (by simp only [List.length_cons]; omega) hsn hso'
                  (by
                    intro p hp q hq
                    simp only [List.mem_singleton] at hp
                    subst hp
                    exact hb1 q hq)
                  (by
                    intro p hp q hq
                    simp only [List.mem_singleton] at hp
                    subst hp
                    exact hcs q hq)]
              simp [List.append_assoc]
          · -- Equal: both iterators advance and the field merge is inserted
            have heq : nn = cn := le_antisymm (not_lt.mp h2) (not_lt.mp h1)
            subst heq
            simp only [updateImagesGo, if_neg h1, if_neg h2]
            have hacc : ∀ p ∈ acc, p.1 < nn :=
              fun p hp => hao p hp (nn, cv) (List.mem_cons_self _ _)
            rw [btInsert_append hacc,
              show btInsert nn (mergeEntry cv nv) ([] : Catalog)
                = [(nn, mergeEntry cv nv)] from rfl]
            rw [ih ns cs (acc ++ [(nn, mergeEntry cv nv)])
                (by omega) hsn' hso'
                (by
                  intro p hp q hq
                  rcases List.mem_append.mp hp with hp | hp
                  · exact han p hp q (List.mem_cons_of_mem _ hq)
                  · simp only [List.mem_singleton] at hp
                    subst hp
                    exact hns q hq)
                (by
                  intro p hp q hq
                  rcases List.mem_append.mp hp with hp | hp
                  · exact hao p hp q (List.mem_cons_of_mem _ hq)
                  · simp only [List.mem_singleton] at hp
                    subst hp
                    exact hcs q hq)]
            rw [ih ns cs [(nn, mergeEntry cv nv)]
                (by omega) hsn' hso'
                (by
                  intro p hp q hq
                  simp only [List.mem_singleton] at hp
                  subst hp
                  exact hns q hq)
                (by
                  intro p hp q hq
                  simp only [List.mem_singleton] at hp
                  subst hp
                  exact hcs q hq)]
            simp [List.append_assoc]

/-! ## One-step unfoldings of the merge on sorted inputs -/

lemma update_images_nil_left (oldL : Catalog) : update_images [] oldL = [] := by
  simp [update_images, updateImagesGo]

lemma update_images_nil_right (np : String × DeserializeImage) (ns : Catalog) :
    update_images (np :: ns) [] = [] := by
  simp [update_images, updateImagesGo]

lemma update_images_cons_lt {nn cn : String} {nv cv : DeserializeImage}
    {ns cs : Catalog} (h : nn < cn)
    (hsn : CatalogSorted ((nn, nv) :: ns)) (hso : CatalogSorted ((cn, cv) :: cs)) :
    update_images ((nn, nv) :: ns) ((cn, cv) :: cs)
      = (nn, nv) :: update_images ns ((cn, cv) :: cs) := by
  have hns := (catalogSorted_cons.mp hsn).1
  have hcs := (catalogSorted_cons.mp hso).1
  simp only [update_images, updateImagesGo, if_pos h]
  rw [show btInsert nn nv ([] : Catalog) = [(nn, nv)] from rfl]
  rw [updateImagesGo_append (ns.length + (cs.length + 1)) ns ((cn, cv) :: cs)
      [(nn, nv)] (by simp) (catalogSorted_cons.mp hsn).2 hso
      (by
        intro p hp q hq
        simp only [List.mem_singleton] at hp
        subst hp
        exact hns q hq)
      (by
        intro p hp q hq
        simp only [List.mem_singleton] at hp
        subst hp
        rcases List.mem_cons.mp hq with rfl | hq
        · exact h
        · exact lt_trans h (hcs q hq))]
  rfl

lemma update_images_cons_gt_delete {nn cn : String} {nv cv : DeserializeImage}
    {ns cs : Catalog} (h : cn < nn) (hd : cv.change.contains "delete" = true) :
    update_images ((nn, nv) :: ns) ((cn, cv) :: cs)
      = update_images ((nn, nv) :: ns) cs := by
  simp only [update_images, updateImagesGo, if_neg (asymm h), if_pos h, if_pos hd]

lemma update_images_cons_gt_keep {nn cn : String} {nv cv : DeserializeImage}
    {ns cs : Catalog} (h : cn < nn) (hd : ¬cv.change.contains "delete" = true)
    (hsn : CatalogSorted ((nn, nv) :: ns)) (hso : CatalogSorted ((cn, cv) :: cs)) :
    update_images ((nn, nv) :: ns) ((cn, cv) :: cs)
      = (cn, cv) :: update_images ((nn, nv) :: ns) cs := by
  have hns := (catalogSorted_cons.mp hsn).1
  have hcs := (catalogSorted_cons.mp hso).1
  simp only [update_images, updateImagesGo, if_neg (asymm h), if_pos h, if_neg hd]
  rw [show btInsert cn cv ([] : Catalog) = [(cn, cv)] from rfl]
  rw [updateImagesGo_append ((ns.length + 1) + cs.length) ((nn, nv) :: ns) cs
      [(cn, cv)] (by simp) hsn (catalogSorted_cons.mp hso).2
      (by
        intro p hp q hq
        simp only [List.mem_singleton] at hp
        subst hp
        rcases List.mem_cons.mp hq with rfl | hq
        · exact h
        · exact lt_trans h (hns q hq))
      (by
        intro p hp q hq
        simp only [List.mem_singleton] at hp
        subst hp
        exact hcs q hq)]
  rfl

lemma update_images_cons_eq {k : String} {nv cv : DeserializeImage}
    {ns cs : Catalog}
    (hsn : CatalogSorted ((k, nv) :: ns)) (hso : CatalogSorted ((k, cv) :: cs)) :
    update_images ((k, nv) :: ns) ((k, cv) :: cs)
      = (k, mergeEntry cv nv) :: update_images ns cs := by
  have hns := (catalogSorted_cons.mp hsn).1
  have hcs := (catalogSorted_cons.mp hso).1
  simp only [update_images, updateImagesGo, if_neg (lt_irrefl k)]
  rw [show btInsert k (mergeEntry cv nv) ([] : Catalog)
      = [(k, mergeEntry cv nv)] from rfl]
  rw [updateImagesGo_append (ns.length + cs.length) ns cs
      [(k, mergeEntry cv nv)] (by simp) (catalogSorted_cons.mp hsn).2
      (catalogSorted_cons.mp hso).2
      (by
        intro p hp q hq
        simp only [List.mem_singleton] at hp
        subst hp
        exact hns q hq)
      (by
        intro p hp q hq
        simp only [List.mem_singleton] at hp
        subst hp
        exact hcs q hq)]
  rfl

/-- A name bound in both sorted catalogs is merged field-by-field: the
output binds it to `mergeEntry` of the two entries. -/
lemma getEntry_update_images :
    ∀ (N : Nat) (newL oldL : Catalog) (n : String) (nv cv : DeserializeImage),
      newL.length + oldL.length ≤ N →
      CatalogSorted newL → CatalogSorted oldL →
      getEntry n newL = some nv → getEntry n oldL = some cv →
      getEntry n (update_images newL oldL) = some (mergeEntry cv nv) := by
  intro N
  induction N with
  | zero =>
    intro newL oldL n nv cv hlen _ _ hgn _
    cases newL with
    | nil => simp [getEntry] at hgn
    | cons p ns => simp at hlen
  | succ N ih =>
    intro newL oldL n nv cv hlen hsn hso hgn hgo
    cases newL with
    | nil => simp [getEntry] at hgn
    | cons np ns =>
      obtain ⟨nn, nv'⟩ := np
      cases oldL with
      | nil => simp [getEntry] at hgo
      | cons cp cs =>
        obtain ⟨cn, cv'⟩ := cp
        simp only [List.length_cons] at hlen
        have hns := (catalogSorted_cons.mp hsn).1
        have hsn' := (catalogSorted_cons.mp hsn).2
        have hcs := (catalogSorted_cons.mp hso).1
        have hso' := (catalogSorted_cons.mp hso).2
        by_cases h1 : nn < cn
        · have hne : n ≠ nn := by
            intro he
            subst he
            have hnone : getEntry n ((cn, cv') :: cs) = none :=
              getEntry_none_of_forall_lt (by
                intro p hp
                rcases List.mem_cons.mp hp with rfl | hp
                · exact h1
                · exact lt_trans h1 (hcs p hp))
            rw [hnone] at hgo
            exact Option.noConfusion hgo
          rw [update_images_cons_lt h1 hsn hso, getEntry_cons, if_neg hne]
          rw [getEntry_cons, if_neg hne] at hgn
          exact ih ns ((cn, cv') :: cs) n nv cv
            (by simp only [List.length_cons]; omega) hsn' hso hgn hgo
        · by_cases h2 : cn < nn
          · have hne : n ≠ cn := by
              intro he
              subst he
              have hnone : getEntry n ((nn, nv') :: ns) = none :=
                getEntry_none_of_forall_lt (by
                  intro p hp
                  rcases List.mem_cons.mp hp with rfl | hp
                  · exact h2
                  · exact lt_trans h2 (hns p hp))
              rw [hnone] at hgn
              exact Option.noConfusion hgn
            rw [getEntry_cons, if_neg hne] at hgo
            by_cases hd : cv'.change.contains "delete" = true
            · rw [update_images_cons_gt_delete h2 hd]
              exact ih ((nn, nv') :: ns) cs n nv cv
                (by simp only [List.length_cons]; omega) hsn hso' hgn hgo
            · rw [update_images_cons_gt_keep h2 hd hsn hso, getEntry_cons,
                if_neg hne]
              exact ih ((nn, nv') :: ns) cs n nv cv
                (by simp only [List.length_cons]; omega) hsn hso' hgn hgo
          · have heq : nn = cn := le_antisymm (not_lt.mp h2) (not_lt.mp h1)
            subst heq
            rw [update_images_cons_eq hsn hso]
            by_cases hn : n = nn
            · subst hn
              rw [getEntry_cons, if_pos rfl] at hgn hgo
              injection hgn with hgn
              injection hgo with hgo
              subst hgn
              subst hgo
              rw [getEntry_cons, if_pos rfl]
            · rw [getEntry_cons, if_neg hn] at hgn hgo
              rw [getEntry_cons, if_neg hn]
              exact ih ns cs n nv cv (by omega) hsn' hso' hgn hgo

/-- Merging an entry with itself changes nothing: every field picks between
two equal values. -/
lemma mergeEntry_self (v : DeserializeImage) : mergeEntry v v = v := by
  cases v
  simp [mergeEntry]

/-- Merging a sorted catalog with itself is the identity. -/
lemma update_images_self : ∀ {l : Catalog}, CatalogSorted l → update_images l l = l := by
  intro l
  induction l with
  | nil => intro _; exact update_images_nil_left []
  | cons p t ih =>
    intro hs
    obtain ⟨k, v⟩ := p
    rw [update_images_cons_eq hs hs, mergeEntry_self,
      ih (catalogSorted_cons.mp hs).2]

/-! ## Field-level behaviour of the entry merge -/

lemma mergeEntry_keep_url {old new : DeserializeImage}
    (h : "keep-url" ∈ old.change) : (mergeEntry old new).url = old.url := by
  simp [mergeEntry, h]

lemma mergeEntry_keep_get_url_prog {old new : DeserializeImage}
    (h : "keep-get-url-prog" ∈ old.change) :
    (mergeEntry old new).get_url_prog = old.get_url_prog := by
  simp [mergeEntry, h]

lemma mergeEntry_keep_description {old new : DeserializeImage}
    (h : "keep-description" ∈ old.change) :
    (mergeEntry old new).description = old.description := by
  simp [mergeEntry, h]

lemma mergeEntry_keep_change {old new : DeserializeImage}
    (h : "keep-change" ∈ old.change) :
    (mergeEntry old new).change = old.change := by
  simp [mergeEntry, h]

lemma mergeEntry_keep_update_after_days {old new : DeserializeImage}
    (h : "keep-update-after-days" ∈ old.change) :
    (mergeEntry old new).update_after_days = old.update_after_days := by
  simp [mergeEntry, h]

lemma mergeEntry_keep_arch_mapping {old new : DeserializeImage}
    (h : "keep-arch-mapping" ∈ old.change) :
    (mergeEntry old new).arch_mapping = old.arch_mapping := by
  simp [mergeEntry, h]

lemma mergeEntry_update_url {old new : DeserializeImage}
    (h : "update-url" ∈ old.change) (hk : "keep-url" ∉ old.change) :
    (mergeEntry old new).url = new.url := by
  simp [mergeEntry, h, hk]

lemma mergeEntry_update_get_url_prog {old new : DeserializeImage}
    (h : "update-get-url-prog" ∈ old.change)
    (hk : "keep-get-url-prog" ∉ old.change) :
    (mergeEntry old new).get_url_prog = new.get_url_prog := by
  simp [mergeEntry, h, hk]

lemma mergeEntry_update_description {old new : DeserializeImage}
    (h : "update-description" ∈ old.change)
    (hk : "keep-description" ∉ old.change) :
    (mergeEntry old new).description = new.description := by
  simp [mergeEntry, h, hk]

lemma mergeEntry_update_change {old new : DeserializeImage}
    (h : "update-change" ∈ old.change) (hk : "keep-change" ∉ old.change) :
    (mergeEntry old new).change = new.change := by
  simp [mergeEntry, h, hk]

lemma mergeEntry_update_update_after_days {old new : DeserializeImage}
    (h : "update-update-after-days" ∈ old.change)
    (hk : "keep-update-after-days" ∉ old.change) :
    (mergeEntry old new).update_after_days = new.update_after_days := by
  simp [mergeEntry, h, hk]

lemma mergeEntry_update_arch_mapping {old new : DeserializeImage}
    (h : "update-arch-mapping" ∈ old.change)
    (hk : "keep-arch-mapping" ∉ old.change) :
    (mergeEntry old new).arch_mapping = new.arch_mapping := by
  simp [mergeEntry, h, hk]

/-- An old entry carrying only directives outside the known vocabulary is
merged to itself: every `contains` test the merge makes comes out false, so
every field keeps the old value. -/
lemma mergeEntry_unknown {old new : DeserializeImage}
    (h : ∀ s ∈ old.change, s ∉ knownDirectives) : mergeEntry old new = old := by
  have hc : ∀ d, d ∈ knownDirectives → d ∉ old.change :=
    fun d hd hm => h d hm hd
  simp [mergeEntry,
    hc "update-all" (by decide),
    hc "keep-url" (by decide), hc "update-url" (by decide),
    hc "keep-get-url-prog" (by decide), hc "update-get-url-prog" (by decide),
    hc "keep-description" (by decide), hc "update-description" (by decide),
    hc "keep-change" (by decide), hc "update-change" (by decide),
    hc "keep-update-after-days" (by decide),
    hc "update-update-after-days" (by decide),
    hc "keep-arch-mapping" (by decide), hc "update-arch-mapping" (by decide)]

lemma mem_setInsert {m n : String} :
    ∀ {l : List String}, m ∈ setInsert n l ↔ m = n ∨ m ∈ l := by
  intro l
  induction l with
  | nil => simp [setInsert]
  | cons x t ih =>
    simp only [setInsert]
    split_ifs with h1 h2
    · simp [List.mem_cons]
    · subst h2
      simp only [List.mem_cons]
      tauto
    · simp only [List.mem_cons, ih]
      tauto

lemma sorted_setInsert {n : String} :
    ∀ {l : List String}, l.Pairwise (· < ·) →
      (setInsert n l).Pairwise (· < ·) := by
  intro l
  induction l with
  | nil => intro _; simp [setInsert]
  | cons x t ih =>
    intro hp
    obtain ⟨hx, ht⟩ := List.pairwise_cons.mp hp
    simp only [setInsert]
    split_ifs with h1 h2
    · refine List.Pairwise.cons ?_ hp
      intro b hb
      rcases List.mem_cons.mp hb with rfl | hb
      · exact h1
      · exact lt_trans h1 (hx b hb)
    · subst h2
      exact hp
    · refine List.Pairwise.cons ?_ (ih ht)
      intro b hb
      rcases mem_setInsert.mp hb with rfl | hb
      · exact lt_of_le_of_ne (not_lt.mp h1) fun he => h2 he.symm
      · exact hx b hb

lemma foldl_setInsert_mem (m : String) :
    ∀ (dir acc : List String),
      m ∈ dir.foldl (fun s n => setInsert n s) acc ↔ m ∈ dir ∨ m ∈ acc := by
  intro dir
  induction dir with
  | nil => intro acc; simp
  | cons x t ih =>
    intro acc
    simp only [List.foldl_cons, ih, mem_setInsert, List.mem_cons]
    tauto

lemma foldl_setInsert_sorted :
    ∀ (dir acc : List String), acc.Pairwise (· < ·) →
      (dir.foldl (fun s n => setInsert n s) acc).Pairwise (· < ·) := by
  intro dir
  induction dir with
  | nil => intro acc h; simpa using h
  | cons x t ih => intro acc h; exact ih _ (sorted_setInsert h)

lemma mem_list_foldl (m : String) :
    ∀ (dirs : List (List String)) (acc : List String),
      m ∈ dirs.foldl
          (fun images dir => dir.foldl (fun s n => setInsert n s) images) acc
        ↔ (∃ d ∈ dirs, m ∈ d) ∨ m ∈ acc := by
  intro dirs
  induction dirs with
  | nil => intro acc; simp
  | cons d ds ih =>
    intro acc
    simp only [List.foldl_cons, ih, foldl_setInsert_mem, List.mem_cons]
    constructor
    · rintro (⟨d', hd', hm⟩ | hm | hm)
      · exact Or.inl ⟨d', Or.inr hd', hm⟩
      · exact Or.inl ⟨d, Or.inl rfl, hm⟩
      · exact Or.inr hm
    · rintro (⟨d', hd' | hd', hm⟩ | hm)
      · subst hd'
        exact Or.inr (Or.inl hm)
      · exact Or.inl ⟨d', hd', hm⟩
      · exact Or.inr (Or.inr hm)

lemma list_foldl_sorted :
    ∀ (dirs : List (List String)) (acc : List String),
      acc.Pairwise (· < ·) →
      (dirs.foldl
          (fun images dir => dir.foldl (fun s n => setInsert n s) images)
          acc).Pairwise (· < ·) := by
  intro dirs
  induction dirs with
  | nil => intro acc h; simpa using h
  | cons d ds ih => intro acc h; exact ih _ (foldl_setInsert_sorted d acc h)

/-! ## Claim theorems -/

/-- Claim C1: the spec says a name present only in the new catalog is
inserted even when the old sequence is exhausted (and a name present only
in the old catalog is kept when the new sequence is exhausted).  The code
violates this: its `while let (Some(ei), Some(ci))` loop stops as soon as
either iterator is exhausted and never drains the other, so merging the
one-entry new catalog `a` with an empty old catalog yields an empty
result instead of inserting `a` verbatim. -/
theorem C1_tail_of_new_dropped :
    getEntry "a"
      (update_images [("a", ⟨none, "u", none, [], none, none⟩)] []) = none := by
  simp [update_images, updateImagesGo, getEntry]

/-- Claim C4: the spec says an old-only name without a `delete` directive
is kept.  The code violates this when the new sequence is exhausted: the
merge loop stops and drops the pending old entry, so merging an empty new
catalog with the one-entry old catalog `a` (no directives) loses `a`. -/
theorem C4_tail_of_old_dropped :
    getEntry "a"
      (update_images [] [("a", ⟨none, "u", none, [], none, none⟩)]) = none := by
  simp [update_images, updateImagesGo, getEntry]

/-- Claim C2, counterexample: an old entry whose directives contain both
`update-url` and `keep-url` keeps the OLD url (`keep-<field>` wins in the
code), so `update-<F>` present does not always force the NEW value. -/
theorem C2_counterexample :
    "update-url" ∈
        (DeserializeImage.mk none "A" none ["update-url", "keep-url"] none
          none).change ∧
    (getEntry "a"
        (update_images
          [("a", ⟨none, "B", none, [], none, none⟩)]
          [("a", ⟨none, "A", none, ["update-url", "keep-url"], none,
            none⟩)])).map DeserializeImage.url = some "A" ∧
    ("A" : String) ≠ "B" := by
  refine ⟨by decide, ?_, by decide⟩
  simp [update_images, updateImagesGo, btInsert, mergeEntry, getEntry]

/-- Claim C2 (amended): for a name present in both sorted catalogs, an old
directive `update-<F>` forces the NEW value of field F — regardless of
`update-all` — provided `keep-<F>` is not also present. -/
theorem C2_update_directive_forces_new
    (newL oldL : Catalog) (n : String) (nv cv : DeserializeImage)
    (hsn : CatalogSorted newL) (hso : CatalogSorted oldL)
    (hn : getEntry n newL = some nv) (ho : getEntry n oldL = some cv) :
    ∃ m, getEntry n (update_images newL oldL) = some m ∧
      ("update-url" ∈ cv.change → "keep-url" ∉ cv.change → m.url = nv.url) ∧
      ("update-get-url-prog" ∈ cv.change → "keep-get-url-prog" ∉ cv.change →
        m.get_url_prog = nv.get_url_prog) ∧
      ("update-description" ∈ cv.change → "keep-description" ∉ cv.change →
        m.description = nv.description) ∧
      ("update-change" ∈ cv.change → "keep-change" ∉ cv.change →
        m.change = nv.change) ∧
      ("update-update-after-days" ∈ cv.change →
        "keep-update-after-days" ∉ cv.change →
        m.update_after_days = nv.update_after_days) ∧
      ("update-arch-mapping" ∈ cv.change → "keep-arch-mapping" ∉ cv.change →
        m.arch_mapping = nv.arch_mapping) :=
  ⟨mergeEntry cv nv,
    getEntry_update_images (newL.length + oldL.length) newL oldL n nv cv
      le_rfl hsn hso hn ho,
    fun h hk => mergeEntry_update_url h hk,
    fun h hk => mergeEntry_update_get_url_prog h hk,
    fun h hk => mergeEntry_update_description h hk,
    fun h hk => mergeEntry_update_change h hk,
    fun h hk => mergeEntry_update_update_after_days h hk,
    fun h hk => mergeEntry_update_arch_mapping h hk⟩

/-- Claim C2 witness: with `update-url` (and `update-all` absent) on the
old entry, the merged url is the new one. -/
theorem C2_witness :
    (getEntry "a"
        (update_images
          [("a", ⟨none, "B", none, [], none, none⟩)]
          [("a", ⟨none, "A", none, ["update-url"], none, none⟩)])).map
        DeserializeImage.url = some "B" := by
  obtain ⟨m, hm, hurl, -⟩ :=
    C2_update_directive_forces_new
      [("a", ⟨none, "B", none, [], none, none⟩)]
      [("a", ⟨none, "A", none, ["update-url"], none, none⟩)]
      "a" ⟨none, "B", none, [], none, none⟩
      ⟨none, "A", none, ["update-url"], none, none⟩
      (by simp [CatalogSorted]) (by simp [CatalogSorted])
      (by simp [getEntry]) (by simp [getEntry])
  rw [hm, Option.map_some']
  rw [hurl (by decide) (by decide)]

/-- Claim C3: for a name present in both sorted catalogs, an old directive
`keep-<F>` preserves the OLD value of field F even when the new value
differs and even when `update-all` is also present (no assumption on
`update-all` is made). -/
theorem C3_keep_directive_preserves_old
    (newL oldL : Catalog) (n : String) (nv cv : DeserializeImage)
    (hsn : CatalogSorted newL) (hso : CatalogSorted oldL)
    (hn : getEntry n newL = some nv) (ho : getEntry n oldL = some cv) :
    ∃ m, getEntry n (update_images newL oldL) = some m ∧
      ("keep-url" ∈ cv.change → nv.url ≠ cv.url → m.url = cv.url) ∧
      ("keep-get-url-prog" ∈ cv.change →
        nv.get_url_prog ≠ cv.get_url_prog →
        m.get_url_prog = cv.get_url_prog) ∧
      ("keep-description" ∈ cv.change → nv.description ≠ cv.description →
        m.description = cv.description) ∧
      ("keep-change" ∈ cv.change → nv.change ≠ cv.change →
        m.change = cv.change) ∧
      ("keep-update-after-days" ∈ cv.change →
        nv.update_after_days ≠ cv.update_after_days →
        m.update_after_days = cv.update_after_days) ∧
      ("keep-arch-mapping" ∈ cv.change →
        nv.arch_mapping ≠ cv.arch_mapping →
        m.arch_mapping = cv.arch_mapping) :=
  ⟨mergeEntry cv nv,
    getEntry_update_images (newL.length + oldL.length) newL oldL n nv cv
      le_rfl hsn hso hn ho,
    fun h _ => mergeEntry_keep_url h,
    fun h _ => mergeEntry_keep_get_url_prog h,
    fun h _ => mergeEntry_keep_description h,
    fun h _ => mergeEntry_keep_change h,
    fun h _ => mergeEntry_keep_update_after_days h,
    fun h _ => mergeEntry_keep_arch_mapping h⟩

/-- Claim C3 witness: with both `keep-url` and `update-all` on the old
entry and a differing new url, the merged url is the old one. -/
theorem C3_witness :
    (getEntry "a"
        (update_images
          [("a", ⟨none, "B", none, [], none, none⟩)]
          [("a", ⟨none, "A", none, ["keep-url", "update-all"], none,
            none⟩)])).map DeserializeImage.url = some "A" := by
  obtain ⟨m, hm, hurl, -⟩ :=
    C3_keep_directive_preserves_old
      [("a", ⟨none, "B", none, [], none, none⟩)]
      [("a", ⟨none, "A", none, ["keep-url", "update-all"], none, none⟩)]
      "a" ⟨none, "B", none, [], none, none⟩
      ⟨none, "A", none, ["keep-url", "update-all"], none, none⟩
      (by simp [CatalogSorted]) (by simp [CatalogSorted])
      (by simp [getEntry]) (by simp [getEntry])
  rw [hm, Option.map_some']
  rw [hurl (by decide) (by decide)]

/-- Claim C5: merging a name-sorted catalog with itself, no entry carrying
directives, returns the catalog unchanged. -/
theorem C5_self_merge_identity (l : Catalog) (hs : CatalogSorted l)
    (_hnd : ∀ p ∈ l, p.2.change = []) : update_images l l = l :=
  update_images_self hs

/-- Claim C5 witness: self-merge of a concrete directive-free two-entry
catalog is the identity. -/
theorem C5_witness :
    update_images
      [("a", ⟨none, "u", none, [], none, none⟩),
       ("b", ⟨some "d", "v", none, [], some 3, none⟩)]
      [("a", ⟨none, "u", none, [], none, none⟩),
       ("b", ⟨some "d", "v", none, [], some 3, none⟩)]
    = [("a", ⟨none, "u", none, [], none, none⟩),
       ("b", ⟨some "d", "v", none, [], some 3, none⟩)] :=
  C5_self_merge_identity _ (by simp [CatalogSorted]; decide) (by decide)

/-- Claim C8: the merge is total on directive strings — an old entry whose
directive list holds only strings outside the known vocabulary merges, for
a name present in both sorted catalogs, to exactly the old entry: every
`contains` test fails, so every field keeps the OLD value. -/
theorem C8_unknown_directives_ignored
    (newL oldL : Catalog) (n : String) (nv cv : DeserializeImage)
    (hsn : CatalogSorted newL) (hso : CatalogSorted oldL)
    (hn : getEntry n newL = some nv) (ho : getEntry n oldL = some cv)
    (hu : ∀ s ∈ cv.change, s ∉ knownDirectives) :
    getEntry n (update_images newL oldL) = some cv := by
  rw [getEntry_update_images (newL.length + oldL.length) newL oldL n nv cv
    le_rfl hsn hso hn ho, mergeEntry_unknown hu]

/-- Claim C8 witness: unknown directives on the old entry leave the whole
old entry in place although the new entry differs in every field. -/
theorem C8_witness :
    getEntry "a"
      (update_images
        [("a", ⟨some "nd", "B", some "q", ["update-all"], some 9, none⟩)]
        [("a", ⟨some "od", "A", some "p", ["frobnicate", "java"], some 7,
          none⟩)])
    = some ⟨some "od", "A", some "p", ["frobnicate", "java"], some 7,
        none⟩ :=
  C8_unknown_directives_ignored
    [("a", ⟨some "nd", "B", some "q", ["update-all"], some 9, none⟩)]
    [("a", ⟨some "od", "A", some "p", ["frobnicate", "java"], some 7, none⟩)]
    "a" ⟨some "nd", "B", some "q", ["update-all"], some 9, none⟩
    ⟨some "od", "A", some "p", ["frobnicate", "java"], some 7, none⟩
    (by simp [CatalogSorted]) (by simp [CatalogSorted])
    (by simp [getEntry]) (by simp [getEntry]) (by decide)

/-- Claim C7: with an effective threshold configured (the per-image
override if set, else the catalog default), `outdate` is true iff now
minus the file's modification time strictly exceeds the threshold; when
the mtime is unreadable (file missing), `outdate` is false. -/
theorem C7_outdate_threshold_iff
    (config_update_after_days update_after_days : Option Nat)
    (modified_time : Option Nat) (now : Nat) :
    (modified_time = none →
      outdate config_update_after_days update_after_days modified_time now
        = false) ∧
    ∀ d, update_after_days.or config_update_after_days = some d →
      (outdate config_update_after_days update_after_days modified_time now
          = true ↔
        ∃ m, modified_time = some m ∧
          (d * 60 * 60 * 24 * nanosPerSec : Int) < (now : Int) - (m : Int)) := by
  constructor
  · rintro rfl
    rfl
  · intro d hd
    cases modified_time with
    | none => simp [outdate, outdate_option]
    | some m =>
      by_cases hm : m ≤ now
      · simp only [outdate, outdate_option, Option.bind_eq_bind,
          Option.some_bind, if_pos hm, hd, Option.getD_some,
          decide_eq_true_eq, Option.some.injEq]
        constructor
        · intro h
          refine ⟨m, rfl, ?_⟩
          simp only [nanosPerSec] at h ⊢
          push_cast
          omega
        · rintro ⟨m', hm', h⟩
          subst hm'
          simp only [nanosPerSec] at h ⊢
          push_cast at h
          omega
      · simp only [outdate, outdate_option, Option.bind_eq_bind,
          Option.some_bind, if_neg hm, Option.none_bind, Option.getD_none,
          Bool.false_eq_true, false_iff, not_exists, not_and,
          Option.some.injEq]
        intro m' hm'
        subst hm'
        intro h
        simp only [nanosPerSec] at h
        push_cast at h
        omega

/-- Claim C7 witness: default threshold one day, no override, file
modified at time zero, now two days later: outdated; and a missing mtime
is never outdated. -/
theorem C7_witness :
    outdate (some 1) none (some 0) (2 * 60 * 60 * 24 * nanosPerSec)
      = true ∧
    outdate (some 1) none none (2 * 60 * 60 * 24 * nanosPerSec) = false :=
  ⟨((C7_outdate_threshold_iff (some 1) none (some 0)
        (2 * 60 * 60 * 24 * nanosPerSec)).2 1 rfl).mpr
      ⟨0, rfl, by norm_num [nanosPerSec]⟩,
    (C7_outdate_threshold_iff (some 1) none none
        (2 * 60 * 60 * 24 * nanosPerSec)).1 rfl⟩

/-- Claim C10: with neither a per-image freshness override nor a
catalog-wide default configured, `outdate` is false for every mtime and
every current time — an arbitrarily old existing file included. -/
theorem C10_no_threshold_never_outdated (modified_time : Option Nat)
    (now : Nat) :
    outdate none none modified_time now = false := by
  cases modified_time with
  | none => rfl
  | some m => by_cases hm : m ≤ now <;> simp [outdate, outdate_option, hm]

/-- Claim C6: whenever `pull` fails before the final rename (download
error, temp-file creation error or write error), the pre-existing image
bytes are unchanged and no temporary file remains in the images
directory. -/
theorem C6_pull_failure_preserves_image
    (image0 download : Option (List Nat)) (tmpfile_ok copy_ok : Bool)
    (h : (pull image0 download tmpfile_ok copy_ok).ok = false) :
    (pull image0 download tmpfile_ok copy_ok).image = image0 ∧
    (pull image0 download tmpfile_ok copy_ok).temp_left = false := by
  cases download with
  | none => exact ⟨rfl, rfl⟩
  | some body =>
    by_cases ht : tmpfile_ok = false
    · simp [pull, ht]
    · by_cases hc : copy_ok = false
      · simp [pull, ht, hc]
      · simp [pull, ht, hc] at h

/-- Claim C6 witness: a failed download leaves the two-byte pre-existing
image in place with no temp file. -/
theorem C6_witness :
    (pull (some [1, 2]) none true true).ok = false ∧
    (pull (some [1, 2]) none true true).image = some [1, 2] ∧
    (pull (some [1, 2]) none true true).temp_left = false :=
  ⟨rfl,
    (C6_pull_failure_preserves_image (some [1, 2]) none true true rfl).1,
    (C6_pull_failure_preserves_image (some [1, 2]) none true true rfl).2⟩

/-- Claim C9: `list` returns the filenames found across all search
directories as one name-sorted, duplicate-free sequence (strictly
ascending, so no duplicates), containing exactly the union of the
directories' entries; in particular directories x,y and y,z yield
x, y, z. -/
theorem C9_list_sorted_dedup_union (images_dirs : List (List String)) :
    (list images_dirs).Pairwise (· < ·) ∧
    (∀ n, n ∈ list images_dirs ↔ ∃ d ∈ images_dirs, n ∈ d) ∧
    list [["x", "y"], ["y", "z"]] = ["x", "y", "z"] := by
  refine ⟨list_foldl_sorted images_dirs [] (by simp), fun n => ?_,
    by simp [list, setInsert]; decide⟩
  rw [list, mem_list_foldl]
  simp

/-- Claim C9 witness: the example instance read off from the theorem. -/
theorem C9_witness : "y" ∈ list [["x", "y"], ["y", "z"]] :=
  ((C9_list_sorted_dedup_union [["x", "y"], ["y", "z"]]).2.1 "y").mpr
    ⟨["x", "y"], by simp, by simp⟩
